import Mathlib

/-!
Verification of the Enigma-class cipher engine specification against a
shallow embedding of the engine.  The repository ships the engine's test
suite (src/task6/enigma.test.js) and bug-fix notes (src/task6/fix.md),
while the engine module itself (enigma.js) is not part of the source
tree; the definitions below are therefore modelled from the
specification's component design (spec.md sections 3, 4, 6, 7), using
the fixed historical rotor catalog that the spec and the tests refer to.
Letters are represented by their alphabet indices 0..25, all positional
arithmetic is modulo 26, and every definition is executable.
-/

namespace Enigma

/-- Modelled from the spec: letters are identified by integer indices
0-25; this helper turns an uppercase wiring string into its index list. -/
def strIdx (s : String) : List Nat := s.data.map (fun c => c.toNat - 65)

/-- Modelled from the spec: rotor I of the fixed historical catalog
(wiring of the historical rotor I, notch at Q = 16). -/
def rotorIW : List Nat := strIdx "EKMFLGDQVZNTOWYHXUSPAIBRCJ"

/-- Modelled from the spec: rotor II of the fixed historical catalog
(wiring of the historical rotor II, notch at E = 4). -/
def rotorIIW : List Nat := strIdx "AJDKSIRUXBLHWTMCQGZNPYFVOE"

/-- Modelled from the spec: rotor III of the fixed historical catalog
(wiring of the historical rotor III, notch at V = 21). -/
def rotorIIIW : List Nat := strIdx "BDFHJLCPRTXVZNYEIWGAKMUSQO"

/-- Modelled from the spec: the fixed involutive reflector permutation
(historical reflector B). -/
def reflectorB : List Nat := strIdx "YRUHQSLDPXNGOKMIEBFZCWVJAT"

/-- Modelled from the spec: a RotorSpec is a wiring permutation together
with the notch position (spec section 3). -/
structure RotorSpec where
  wiring : List Nat
  notch : Nat
deriving DecidableEq

/-- Modelled from the spec: the fixed historical rotor catalog, indexed
by the rotor choice integers 0, 1, 2 (rotors I, II, III with notches
Q = 16, E = 4, V = 21, as named in the test suite). -/
def catalog : List RotorSpec :=
  [⟨rotorIW, 16⟩, ⟨rotorIIW, 4⟩, ⟨rotorIIIW, 21⟩]

/-- Modelled from the spec: a rotor combines its immutable RotorSpec
with the mutable RotorState (position and ring setting, spec section 3). -/
structure Rotor where
  wiring : List Nat
  notch : Nat
  ring : Nat
  pos : Nat
deriving DecidableEq

/-- Modelled from the spec: `atNotch` is true iff position = notch
(spec section 4.1). -/
def Rotor.atNotch (r : Rotor) : Bool := r.pos == r.notch

/-- Modelled from the spec: `step` advances the position by 1 modulo 26
(spec section 4.1). -/
def Rotor.step (r : Rotor) : Rotor := { r with pos := (r.pos + 1) % 26 }

/-- Modelled from the spec: the forward transform of a rotor,
contact = (x + position - ringSetting + 26) mod 26, output =
wiring[contact], result = (output - position + ringSetting + 26) mod 26
(spec section 4.1). -/
def Rotor.forward (r : Rotor) (x : Nat) : Nat :=
  let contact := (x + r.pos + 26 - r.ring) % 26
  let out := r.wiring.getD contact 0
  (out + r.ring + 26 - r.pos) % 26

/-- Modelled from the spec: the backward transform of a rotor, the
inverse of `forward` — same offset arithmetic but looking the shifted
letter up on the wiring's output side (spec section 4.1). -/
def Rotor.backward (r : Rotor) (x : Nat) : Nat :=
  let contact := (x + r.pos + 26 - r.ring) % 26
  let j := r.wiring.indexOf contact
  (j + r.ring + 26 - r.pos) % 26

/-- Modelled from the spec: the plugboard swap — the mapped partner of
the first pair containing the letter, or the letter itself if unmapped
(spec section 4.3). -/
def plugboardSwap (pairs : List (Nat × Nat)) (x : Nat) : Nat :=
  match pairs with
  | [] => x
  | pq :: rest =>
    if pq.1 = x then pq.2 else if pq.2 = x then pq.1 else plugboardSwap rest x

/-- All letters occurring in a plugboard pair list, in order. -/
def pairLetters (pairs : List (Nat × Nat)) : List Nat :=
  pairs.foldr (fun pq acc => pq.1 :: pq.2 :: acc) []

/-- Modelled from the spec: the Machine composes three rotors (left,
middle, right), one reflector and one plugboard (spec section 3). -/
structure Machine where
  left : Rotor
  middle : Rotor
  right : Rotor
  reflector : List Nat
  plug : List (Nat × Nat)
deriving DecidableEq

/-- Modelled from the spec: the stepping algorithm with the historical
double-step — all notch states are read before any rotor moves; the
right rotor always steps, the middle rotor steps iff the right or the
middle rotor was at its notch, the left rotor steps iff the middle
rotor was at its notch (spec section 4.4). -/
def Machine.stepRotors (m : Machine) : Machine :=
  let rightAt := m.right.atNotch
  let midAt := m.middle.atNotch
  { m with
    right := m.right.step
    middle := if rightAt || midAt then m.middle.step else m.middle
    left := if midAt then m.left.step else m.left }

/-- Modelled from the spec: the signal path — plugboard, rotors forward
right-to-left, reflector, rotors backward left-to-right, plugboard
(spec section 4.4). -/
def Machine.encryptLetter (m : Machine) (x : Nat) : Nat :=
  let a := plugboardSwap m.plug x
  let b := m.left.forward (m.middle.forward (m.right.forward a))
  let c := m.reflector.getD b 0
  let d := m.right.backward (m.middle.backward (m.left.backward c))
  plugboardSwap m.plug d

/-- Modelled from the spec: a character is processed iff it is an upper
or lower case alphabetic letter (spec section 4.4). -/
def isLetter (c : Char) : Bool :=
  (65 ≤ c.toNat && c.toNat ≤ 90) || (97 ≤ c.toNat && c.toNat ≤ 122)

/-- Modelled from the spec: case folding of a letter character to its
alphabet index 0-25 (spec section 4.4). -/
def toUpperIdx (c : Char) : Nat :=
  if 97 ≤ c.toNat then c.toNat - 97 else c.toNat - 65

/-- Modelled from the spec: the uppercase character of an alphabet
index (spec section 4.4, output is re-cased to uppercase). -/
def idxChar (i : Nat) : Char := Char.ofNat (65 + i)

/-- Modelled from the spec: encrypting one letter character — one
stepping event, then the signal path on the case-folded index, emitted
as an uppercase character (spec section 4.4). -/
def Machine.encryptChar (m : Machine) (c : Char) : Machine × Char :=
  let m' := m.stepRotors
  (m', idxChar (m'.encryptLetter (toUpperIdx c)))

/-- Modelled from the spec: processing one character — non-letters pass
through unchanged with no stepping and no signal path (spec section 4.4). -/
def Machine.processChar (m : Machine) (c : Char) : Machine × Char :=
  if isLetter c then m.encryptChar c else (m, c)

/-- Modelled from the spec: the single left-to-right pass of `process`
over a character list (spec section 4.4). -/
def Machine.processList (m : Machine) : List Char → Machine × List Char
  | [] => (m, [])
  | c :: cs =>
    let p := m.processChar c
    let q := p.1.processList cs
    (q.1, p.2 :: q.2)

/-- Modelled from the spec: `process(text)` — the message-level
transformation, returning the final machine together with the output
string (spec sections 4.4 and 6). -/
def Machine.process (m : Machine) (s : String) : Machine × String :=
  let p := m.processList s.data
  (p.1, String.mk p.2)

/-- Modelled from the spec: the per-character case normalization that
`process` applies — letters are case-folded to uppercase, everything
else is unchanged. -/
def normChar (c : Char) : Char :=
  if isLetter c then idxChar (toUpperIdx c) else c

/-- Modelled from the spec: case normalization of a whole string. -/
def normStr (s : String) : String := String.mk (s.data.map normChar)

/-- Modelled from the spec: the configuration error taxonomy surfaced
at construction time (spec section 7). -/
inductive ConfigurationError where
  | rotorIndex
  | ringSetting
  | initialPosition
  | plugboardDuplicate
  | plugboardSelfPair
deriving DecidableEq

/-- Modelled from the spec: the construction interface — three rotor
catalog indices, three initial positions, three ring settings, and a
list of plugboard letter pairs (spec section 6). -/
structure Config where
  rotors : Nat × Nat × Nat
  positions : Nat × Nat × Nat
  rings : Nat × Nat × Nat
  pairs : List (Fin 26 × Fin 26)

/-- The plugboard pair list of a configuration as plain indices. -/
def Config.plugNat (cfg : Config) : List (Nat × Nat) :=
  cfg.pairs.map (fun pq => (pq.1.val, pq.2.val))

/-- A rotor assembled from a catalog spec, a ring setting and an
initial position. -/
def mkRotor (s : RotorSpec) (ring pos : Nat) : Rotor :=
  ⟨s.wiring, s.notch, ring, pos⟩

/-- Modelled from the spec: eager construction-time validation — rotor
catalog indices in range, ring settings and initial positions within
0-25, no letter in more than one plugboard pair, no letter paired with
itself; only a fully validated Machine is ever returned (spec
sections 6 and 7). -/
def buildMachine (cfg : Config) : Except ConfigurationError Machine :=
  if ¬ (cfg.rotors.1 < catalog.length ∧ cfg.rotors.2.1 < catalog.length ∧
        cfg.rotors.2.2 < catalog.length) then
    .error .rotorIndex
  else if ¬ (cfg.rings.1 ≤ 25 ∧ cfg.rings.2.1 ≤ 25 ∧ cfg.rings.2.2 ≤ 25) then
    .error .ringSetting
  else if ¬ (cfg.positions.1 ≤ 25 ∧ cfg.positions.2.1 ≤ 25 ∧
             cfg.positions.2.2 ≤ 25) then
    .error .initialPosition
  else if ¬ (pairLetters cfg.plugNat).Nodup then
    .error .plugboardDuplicate
  else if ∃ pq ∈ cfg.pairs, pq.1 = pq.2 then
    .error .plugboardSelfPair
  else
    .ok ⟨mkRotor (catalog.getD cfg.rotors.1 ⟨[], 0⟩) cfg.rings.1 cfg.positions.1,
         mkRotor (catalog.getD cfg.rotors.2.1 ⟨[], 0⟩) cfg.rings.2.1 cfg.positions.2.1,
         mkRotor (catalog.getD cfg.rotors.2.2 ⟨[], 0⟩) cfg.rings.2.2 cfg.positions.2.2,
         reflectorB, cfg.plugNat⟩

/-- A wiring is a permutation of the 26 letter indices. -/
def wiringPerm (w : List Nat) : Prop :=
  w.length = 26 ∧ w.Nodup ∧ (∀ y ∈ w, y < 26) ∧ ∀ y, y < 26 → y ∈ w

/-- A rotor is valid when its wiring is a permutation and its position
and ring setting are within 0-25. -/
def Rotor.Valid (r : Rotor) : Prop :=
  wiringPerm r.wiring ∧ r.pos < 26 ∧ r.ring < 26

/-- A plugboard is valid when no letter occurs twice (across pairs or
within a pair) and all its letters are within 0-25. -/
def PlugValid (pl : List (Nat × Nat)) : Prop :=
  (pairLetters pl).Nodup ∧ ∀ pq ∈ pl, pq.1 < 26 ∧ pq.2 < 26

/-- A machine is valid when its three rotors are valid, its reflector
is the fixed historical reflector, and its plugboard is valid. -/
def Machine.Valid (m : Machine) : Prop :=
  m.left.Valid ∧ m.middle.Valid ∧ m.right.Valid ∧
    m.reflector = reflectorB ∧ PlugValid m.plug

instance (w : List Nat) : Decidable (wiringPerm w) := by
  unfold wiringPerm; infer_instance

instance (r : Rotor) : Decidable r.Valid := by
  unfold Rotor.Valid; infer_instance

instance (pl : List (Nat × Nat)) : Decidable (PlugValid pl) := by
  unfold PlugValid; infer_instance

instance (m : Machine) : Decidable m.Valid := by
  unfold Machine.Valid; infer_instance

/-- The rotor assembled from catalog index `i` with the given ring
setting and initial position. -/
def specRotor (i ring pos : Nat) : Rotor := mkRotor (catalog.getD i ⟨[], 0⟩) ring pos

/-- The machine of the test suite's base configuration: rotors I, II,
III, all positions and ring settings zero, empty plugboard. -/
def machineStd : Machine :=
  ⟨specRotor 0 0 0, specRotor 1 0 0, specRotor 2 0 0, reflectorB, []⟩

/-- The base configuration whose construction yields `machineStd`. -/
def cfgStd : Config := ⟨(0, 1, 2), (0, 0, 0), (0, 0, 0), []⟩

/-! Basic facts about permutation wirings. -/

theorem wiringPerm_getD_lt {w : List Nat} (hw : wiringPerm w) {c : Nat} (hc : c < 26) :
    w.getD c 0 < 26 := by
  rw [List.getD_eq_getElem w 0 (by rw [hw.1]; exact hc)]
  exact hw.2.2.1 _ (List.getElem_mem _)

theorem wiringPerm_indexOf_lt {w : List Nat} (hw : wiringPerm w) {y : Nat} (hy : y < 26) :
    w.indexOf y < 26 := by
  have h1 := List.indexOf_lt_length.2 (hw.2.2.2 y hy)
  have h2 := hw.1
  omega

theorem wiringPerm_indexOf_getD {w : List Nat} (hw : wiringPerm w) {c : Nat} (hc : c < 26) :
    w.indexOf (w.getD c 0) = c := by
  have hcl : c < w.length := by rw [hw.1]; exact hc
  rw [List.getD_eq_getElem w 0 hcl]
  exact List.indexOf_getElem hw.2.1 c hcl

theorem wiringPerm_getD_indexOf {w : List Nat} (hw : wiringPerm w) {y : Nat} (hy : y < 26) :
    w.getD (w.indexOf y) 0 = y := by
  have hm : y ∈ w := hw.2.2.2 y hy
  have hl : w.indexOf y < w.length := List.indexOf_lt_length.2 hm
  rw [List.getD_eq_getElem w 0 hl]
  exact List.getElem_indexOf hl

/-! Range and inverse facts about the rotor transforms. -/

theorem Rotor.forward_lt (r : Rotor) (x : Nat) : r.forward x < 26 :=
  Nat.mod_lt _ (by omega)

theorem Rotor.backward_lt (r : Rotor) (x : Nat) : r.backward x < 26 :=
  Nat.mod_lt _ (by omega)

theorem Rotor.backward_forward {r : Rotor} (hr : r.Valid) {x : Nat} (hx : x < 26) :
    r.backward (r.forward x) = x := by
  obtain ⟨hw, hp, hg⟩ := hr
  show (r.wiring.indexOf ((r.forward x + r.pos + 26 - r.ring) % 26) + r.ring + 26 - r.pos) % 26 = x
  have hc1 : (x + r.pos + 26 - r.ring) % 26 < 26 := Nat.mod_lt _ (by omega)
  have hout : r.wiring.getD ((x + r.pos + 26 - r.ring) % 26) 0 < 26 :=
    wiringPerm_getD_lt hw hc1
  have h2 : (r.forward x + r.pos + 26 - r.ring) % 26 =
      r.wiring.getD ((x + r.pos + 26 - r.ring) % 26) 0 := by
    show ((r.wiring.getD ((x + r.pos + 26 - r.ring) % 26) 0 + r.ring + 26 - r.pos) % 26 +
        r.pos + 26 - r.ring) % 26 = _
    omega
  rw [h2, wiringPerm_indexOf_getD hw hc1]
  omega

theorem Rotor.forward_backward {r : Rotor} (hr : r.Valid) {y : Nat} (hy : y < 26) :
    r.forward (r.backward y) = y := by
  obtain ⟨hw, hp, hg⟩ := hr
  show (r.wiring.getD ((r.backward y + r.pos + 26 - r.ring) % 26) 0 + r.ring + 26 - r.pos) % 26 = y
  have hc1 : (y + r.pos + 26 - r.ring) % 26 < 26 := Nat.mod_lt _ (by omega)
  have hj : r.wiring.indexOf ((y + r.pos + 26 - r.ring) % 26) < 26 :=
    wiringPerm_indexOf_lt hw hc1
  have h2 : (r.backward y + r.pos + 26 - r.ring) % 26 =
      r.wiring.indexOf ((y + r.pos + 26 - r.ring) % 26) := by
    show ((r.wiring.indexOf ((y + r.pos + 26 - r.ring) % 26) + r.ring + 26 - r.pos) % 26 +
        r.pos + 26 - r.ring) % 26 = _
    omega
  rw [h2, wiringPerm_getD_indexOf hw hc1]
  omega

/-! Facts about the plugboard swap. -/

theorem pairLetters_cons (pq : Nat × Nat) (rest : List (Nat × Nat)) :
    pairLetters (pq :: rest) = pq.1 :: pq.2 :: pairLetters rest := rfl

theorem mem_pairLetters_of_mem {pl : List (Nat × Nat)} {a b : Nat} (h : (a, b) ∈ pl) :
    a ∈ pairLetters pl ∧ b ∈ pairLetters pl := by
  induction pl with
  | nil => cases h
  | cons pq rest ih =>
    rw [pairLetters_cons]
    rcases List.mem_cons.1 h with h1 | h1
    · rw [← h1]
      exact ⟨List.mem_cons_self _ _, List.mem_cons_of_mem _ (List.mem_cons_self _ _)⟩
    · obtain ⟨ha, hb⟩ := ih h1
      exact ⟨List.mem_cons_of_mem _ (List.mem_cons_of_mem _ ha),
             List.mem_cons_of_mem _ (List.mem_cons_of_mem _ hb)⟩

theorem plugboardSwap_cons (pq : Nat × Nat) (rest : List (Nat × Nat)) (x : Nat) :
    plugboardSwap (pq :: rest) x =
      if pq.1 = x then pq.2 else if pq.2 = x then pq.1 else plugboardSwap rest x := rfl

theorem plugboardSwap_eq_or_mem (pl : List (Nat × Nat)) (x : Nat) :
    plugboardSwap pl x = x ∨ plugboardSwap pl x ∈ pairLetters pl := by
  induction pl with
  | nil => exact Or.inl rfl
  | cons pq rest ih =>
    rw [pairLetters_cons, plugboardSwap_cons]
    by_cases h1 : pq.1 = x
    · rw [if_pos h1]
      exact Or.inr (List.mem_cons_of_mem _ (List.mem_cons_self _ _))
    · rw [if_neg h1]
      by_cases h2 : pq.2 = x
      · rw [if_pos h2]
        exact Or.inr (List.mem_cons_self _ _)
      · rw [if_neg h2]
        rcases ih with h | h
        · exact Or.inl h
        · exact Or.inr (List.mem_cons_of_mem _ (List.mem_cons_of_mem _ h))

theorem plugboardSwap_not_mem {pl : List (Nat × Nat)} {x : Nat}
    (hx : ∀ pq ∈ pl, x ≠ pq.1 ∧ x ≠ pq.2) : plugboardSwap pl x = x := by
  induction pl with
  | nil => rfl
  | cons pq rest ih =>
    obtain ⟨ha, hb⟩ := hx pq (List.mem_cons_self _ _)
    rw [plugboardSwap_cons, if_neg (fun h => ha h.symm), if_neg (fun h => hb h.symm)]
    exact ih (fun q hq => hx q (List.mem_cons_of_mem _ hq))

theorem plugboardSwap_pair {pl : List (Nat × Nat)} (hnd : (pairLetters pl).Nodup)
    {a b : Nat} (hab : (a, b) ∈ pl) :
    plugboardSwap pl a = b ∧ plugboardSwap pl b = a := by
  induction pl with
  | nil => cases hab
  | cons pq rest ih =>
    rw [pairLetters_cons, List.nodup_cons, List.nodup_cons] at hnd
    obtain ⟨h1, h2, h3⟩ := hnd
    have h1a : pq.1 ≠ pq.2 := fun h => h1 (h ▸ List.mem_cons_self _ _)
    have h1r : pq.1 ∉ pairLetters rest := fun h => h1 (List.mem_cons_of_mem _ h)
    rcases List.mem_cons.1 hab with h | h
    · obtain rfl := h.symm
      constructor
      · rw [plugboardSwap_cons, if_pos rfl]
      · rw [plugboardSwap_cons, if_neg h1a, if_pos rfl]
    · obtain ⟨hma, hmb⟩ := mem_pairLetters_of_mem h
      have hq1a : pq.1 ≠ a := fun he => h1r (he ▸ hma)
      have hq1b : pq.1 ≠ b := fun he => h1r (he ▸ hmb)
      have hq2a : pq.2 ≠ a := fun he => h2 (he ▸ hma)
      have hq2b : pq.2 ≠ b := fun he => h2 (he ▸ hmb)
      obtain ⟨ia, ib⟩ := ih h3 h
      constructor
      · rw [plugboardSwap_cons, if_neg hq1a, if_neg hq2a]; exact ia
      · rw [plugboardSwap_cons, if_neg hq1b, if_neg hq2b]; exact ib

theorem plugboardSwap_plugboardSwap {pl : List (Nat × Nat)}
    (hnd : (pairLetters pl).Nodup) (x : Nat) :
    plugboardSwap pl (plugboardSwap pl x) = x := by
  induction pl with
  | nil => rfl
  | cons pq rest ih =>
    rw [pairLetters_cons, List.nodup_cons, List.nodup_cons] at hnd
    obtain ⟨h1, h2, h3⟩ := hnd
    have h1a : pq.1 ≠ pq.2 := fun h => h1 (h ▸ List.mem_cons_self _ _)
    have h1r : pq.1 ∉ pairLetters rest := fun h => h1 (List.mem_cons_of_mem _ h)
    rw [plugboardSwap_cons pq rest x]
    by_cases hx1 : pq.1 = x
    · rw [if_pos hx1, plugboardSwap_cons pq rest pq.2, if_neg h1a, if_pos rfl]
      exact hx1
    · rw [if_neg hx1]
      by_cases hx2 : pq.2 = x
      · rw [if_pos hx2, plugboardSwap_cons pq rest pq.1, if_pos rfl]
        exact hx2
      · rw [if_neg hx2]
        have hy := plugboardSwap_eq_or_mem rest x
        have hy1 : pq.1 ≠ plugboardSwap rest x := by
          rcases hy with h | h
          · rw [h]; exact hx1
          · exact fun he => h1r (he ▸ h)
        have hy2 : pq.2 ≠ plugboardSwap rest x := by
          rcases hy with h | h
          · rw [h]; exact hx2
          · exact fun he => h2 (he ▸ h)
        rw [plugboardSwap_cons pq rest (plugboardSwap rest x), if_neg hy1, if_neg hy2]
        exact ih h3

theorem plugboardSwap_lt {pl : List (Nat × Nat)} (hv : PlugValid pl)
    {x : Nat} (hx : x < 26) : plugboardSwap pl x < 26 := by
  rcases plugboardSwap_eq_or_mem pl x with h | h
  · rw [h]; exact hx
  · revert h
    generalize plugboardSwap pl x = y
    intro h
    induction pl with
    | nil => cases h
    | cons pq rest ih =>
      rw [pairLetters_cons] at h
      obtain ⟨hp, hrest⟩ := hv
      rw [pairLetters_cons, List.nodup_cons, List.nodup_cons] at hp
      rcases List.mem_cons.1 h with h' | h'
      · rw [h']; exact (hrest pq (List.mem_cons_self _ _)).1
      · rcases List.mem_cons.1 h' with h'' | h''
        · rw [h'']; exact (hrest pq (List.mem_cons_self _ _)).2
        · exact ih ⟨hp.2.2, fun q hq => hrest q (List.mem_cons_of_mem _ hq)⟩ h''

/-! Facts about the fixed reflector, established by computation. -/

theorem reflectorB_lt : ∀ z, z < 26 → reflectorB.getD z 0 < 26 := by decide

theorem reflectorB_invol : ∀ z, z < 26 → reflectorB.getD (reflectorB.getD z 0) 0 = z := by
  decide

theorem reflectorB_no_fix : ∀ z, z < 26 → reflectorB.getD z 0 ≠ z := by decide

/-! Facts about character classification and case folding. -/

theorem toUpperIdx_lt {c : Char} (h : isLetter c = true) : toUpperIdx c < 26 := by
  unfold isLetter at h
  unfold toUpperIdx
  simp only [Bool.or_eq_true, Bool.and_eq_true, decide_eq_true_eq] at h
  split <;> omega

theorem isLetter_idxChar {y : Nat} (hy : y < 26) : isLetter (idxChar y) = true := by
  revert hy
  revert y
  decide

theorem toUpperIdx_idxChar {y : Nat} (hy : y < 26) : toUpperIdx (idxChar y) = y := by
  revert hy
  revert y
  decide

/-! Validity is preserved by stepping. -/

theorem Rotor.Valid.step {r : Rotor} (hr : r.Valid) : r.step.Valid := by
  obtain ⟨hw, hp, hg⟩ := hr
  exact ⟨hw, Nat.mod_lt _ (by omega), hg⟩

theorem Machine.Valid.stepRotors {m : Machine} (hm : m.Valid) : m.stepRotors.Valid := by
  obtain ⟨hL, hM, hR, hrefl, hplug⟩ := hm
  refine ⟨?_, ?_, ?_, hrefl, hplug⟩
  · show (if m.middle.atNotch then m.left.step else m.left).Valid
    split
    · exact hL.step
    · exact hL
  · show (if m.right.atNotch || m.middle.atNotch then m.middle.step else m.middle).Valid
    split
    · exact hM.step
    · exact hM
  · exact hR.step

/-! The signal path is a fixed-point-free involution on letters, for
every valid machine. -/

theorem Machine.encryptLetter_lt {m : Machine} (hm : m.Valid) (x : Nat) :
    m.encryptLetter x < 26 :=
  plugboardSwap_lt hm.2.2.2.2 (Rotor.backward_lt _ _)

theorem Machine.encryptLetter_encryptLetter {m : Machine} (hm : m.Valid)
    {x : Nat} (hx : x < 26) : m.encryptLetter (m.encryptLetter x) = x := by
  obtain ⟨hL, hM, hR, hrefl, hplug⟩ := hm
  simp only [Machine.encryptLetter, hrefl]
  have ha : plugboardSwap m.plug x < 26 := plugboardSwap_lt hplug hx
  have hb : m.left.forward (m.middle.forward (m.right.forward (plugboardSwap m.plug x))) < 26 :=
    Rotor.forward_lt _ _
  have hc : reflectorB.getD
      (m.left.forward (m.middle.forward (m.right.forward (plugboardSwap m.plug x)))) 0 < 26 :=
    reflectorB_lt _ hb
  have hd : m.right.backward (m.middle.backward (m.left.backward (reflectorB.getD
      (m.left.forward (m.middle.forward (m.right.forward (plugboardSwap m.plug x)))) 0))) < 26 :=
    Rotor.backward_lt _ _
  rw [plugboardSwap_plugboardSwap hplug.1]
  rw [Rotor.forward_backward hR (Rotor.backward_lt _ _)]
  rw [Rotor.forward_backward hM (Rotor.backward_lt _ _)]
  rw [Rotor.forward_backward hL hc]
  rw [reflectorB_invol _ hb]
  rw [Rotor.backward_forward hL (Rotor.forward_lt _ _)]
  rw [Rotor.backward_forward hM (Rotor.forward_lt _ _)]
  rw [Rotor.backward_forward hR ha]
  exact plugboardSwap_plugboardSwap hplug.1 x

theorem Machine.encryptLetter_ne_self {m : Machine} (hm : m.Valid) (x : Nat) :
    m.encryptLetter x ≠ x := by
  obtain ⟨hL, hM, hR, hrefl, hplug⟩ := hm
  intro h
  simp only [Machine.encryptLetter, hrefl] at h
  set a := plugboardSwap m.plug x with haeq
  set b := m.left.forward (m.middle.forward (m.right.forward a)) with hbeq
  have hb : b < 26 := Rotor.forward_lt _ _
  have h2 : m.right.backward (m.middle.backward (m.left.backward (reflectorB.getD b 0))) = a := by
    have h2a := congrArg (plugboardSwap m.plug) h
    rwa [plugboardSwap_plugboardSwap hplug.1] at h2a
  have h3 := congrArg (fun z => m.left.forward (m.middle.forward (m.right.forward z))) h2
  simp only at h3
  rw [Rotor.forward_backward hR (Rotor.backward_lt _ _),
      Rotor.forward_backward hM (Rotor.backward_lt _ _),
      Rotor.forward_backward hL (reflectorB_lt _ hb), ← hbeq] at h3
  exact reflectorB_no_fix b hb h3

/-! Facts about message-level processing. -/

theorem Machine.processList_length (m : Machine) (cs : List Char) :
    (m.processList cs).2.length = cs.length := by
  induction cs generalizing m with
  | nil => rfl
  | cons c cs ih =>
    simp only [Machine.processList, List.length_cons]
    rw [ih]

theorem Machine.processList_fst (m : Machine) (cs : List Char) :
    (m.processList cs).1 = Machine.stepRotors^[cs.countP isLetter] m := by
  induction cs generalizing m with
  | nil => rfl
  | cons c cs ih =>
    by_cases h : isLetter c = true
    · simp only [Machine.processList, Machine.processChar, h, if_true,
        Machine.encryptChar, List.countP_cons, ih]
      rw [Function.iterate_succ_apply]
    · simp [Machine.processList, Machine.processChar, h, List.countP_cons, ih]

theorem Machine.processList_getD (m : Machine) (cs : List Char) (i : Nat)
    (h : isLetter (cs.getD i ' ') = false) :
    ((m.processList cs).2).getD i ' ' = cs.getD i ' ' := by
  induction cs generalizing m i with
  | nil => rfl
  | cons c cs ih =>
    match i with
    | 0 =>
      have hc : isLetter c = false := h
      simp only [Machine.processList, Machine.processChar, hc, Bool.false_eq_true, if_false]
      rfl
    | Nat.succ j =>
      have hj : isLetter (cs.getD j ' ') = false := h
      simp only [Machine.processList, List.getD_cons_succ]
      exact ih _ j hj

theorem Machine.processList_processList {m : Machine} (hm : m.Valid) (cs : List Char) :
    (m.processList (m.processList cs).2).2 = cs.map normChar := by
  induction cs generalizing m with
  | nil => rfl
  | cons c cs ih =>
    by_cases h : isLetter c = true
    · have hm' : m.stepRotors.Valid := hm.stepRotors
      have hup : toUpperIdx c < 26 := toUpperIdx_lt h
      have hy : m.stepRotors.encryptLetter (toUpperIdx c) < 26 :=
        Machine.encryptLetter_lt hm' _
      have hl1 : isLetter (idxChar (m.stepRotors.encryptLetter (toUpperIdx c))) = true :=
        isLetter_idxChar hy
      have e1 : m.processList (c :: cs)
          = ((m.stepRotors.processList cs).1,
             idxChar (m.stepRotors.encryptLetter (toUpperIdx c))
               :: (m.stepRotors.processList cs).2) := by
        simp [Machine.processList, Machine.processChar, h, Machine.encryptChar]
      have e2 : m.processChar (idxChar (m.stepRotors.encryptLetter (toUpperIdx c)))
          = (m.stepRotors, normChar c) := by
        simp [Machine.processChar, hl1, Machine.encryptChar,
          toUpperIdx_idxChar hy, Machine.encryptLetter_encryptLetter hm' hup, normChar, h]
      rw [e1]
      simp only [Machine.processList, e2]
      simp only [List.map_cons]
      rw [ih hm']
    · have e1 : m.processList (c :: cs)
          = ((m.processList cs).1, c :: (m.processList cs).2) := by
        simp [Machine.processList, Machine.processChar, h]
      have e2 : m.processChar c = (m, c) := by
        simp [Machine.processChar, h]
      rw [e1]
      simp only [Machine.processList, e2]
      rw [ih hm]
      simp [normChar, h]

/-! Construction-time validation. -/

theorem catalog_wiringPerm : ∀ s ∈ catalog, wiringPerm s.wiring := by decide

theorem specRotor_valid {i ring pos : Nat} (hi : i < catalog.length)
    (hr : ring < 26) (hp : pos < 26) :
    (mkRotor (catalog.getD i ⟨[], 0⟩) ring pos).Valid := by
  refine ⟨?_, hp, hr⟩
  have hmem : catalog.getD i ⟨[], 0⟩ ∈ catalog := by
    rw [List.getD_eq_getElem _ _ hi]
    exact List.getElem_mem _
  exact catalog_wiringPerm _ hmem

theorem plugNat_lt (cfg : Config) : ∀ pq ∈ cfg.plugNat, pq.1 < 26 ∧ pq.2 < 26 := by
  intro pq hpq
  simp only [Config.plugNat, List.mem_map] at hpq
  obtain ⟨q, hq, rfl⟩ := hpq
  exact ⟨q.1.isLt, q.2.isLt⟩

theorem buildMachine_ok_valid {cfg : Config} {m : Machine}
    (h : buildMachine cfg = .ok m) : m.Valid := by
  unfold buildMachine at h
  split at h
  · cases h
  · split at h
    · cases h
    · split at h
      · cases h
      · split at h
        · cases h
        · split at h
          · cases h
          · rename_i h1 h2 h3 h4 h5
            rw [not_not] at h1 h2 h3 h4
            obtain rfl := (Except.ok.inj h).symm
            exact ⟨specRotor_valid h1.1 (by omega) (by omega),
                   specRotor_valid h1.2.1 (by omega) (by omega),
                   specRotor_valid h1.2.2 (by omega) (by omega),
                   rfl, h4, plugNat_lt cfg⟩

/-- The machine of the double-step test scenario: rotors I, II, III at
positions [0, 4, 21], all ring settings zero, empty plugboard. -/
def machineDouble : Machine :=
  ⟨specRotor 0 0 0, specRotor 1 0 4, specRotor 2 0 21, reflectorB, []⟩

/-- The machine with ring settings [5, 10, 15] and otherwise the base
configuration. -/
def machineRings : Machine :=
  ⟨specRotor 0 5 0, specRotor 1 10 0, specRotor 2 15 0, reflectorB, []⟩

/-! Claim theorems. -/

/-- C1. Reciprocity: for every valid configuration and every message,
if one Machine constructed from that configuration computes the
ciphertext and a second, freshly constructed Machine with the identical
rotor choices, initial positions, ring settings and plugboard pairs
processes that ciphertext, the result is the case-normalized original
message. -/
theorem reciprocity (cfg : Config) (m1 m2 : Machine) (s : String)
    (h1 : buildMachine cfg = .ok m1) (h2 : buildMachine cfg = .ok m2) :
    (m2.process ((m1.process s).2)).2 = normStr s := by
  rw [h1] at h2
  obtain rfl := Except.ok.inj h2
  have hv : m1.Valid := buildMachine_ok_valid h1
  exact congrArg String.mk (Machine.processList_processList hv s.data)

/-- Witness for C1 at the base configuration and the message HELLO. -/
theorem reciprocity_witness :
    (machineStd.process ((machineStd.process "HELLO").2)).2 = "HELLO" :=
  (reciprocity cfgStd machineStd machineStd "HELLO" rfl rfl).trans (by decide)

/-- C2. Stepping rule with double-step: on every encrypted letter
exactly one stepping event happens before the signal path, computed
entirely from the pre-step positions; the right rotor always advances
by 1 mod 26, the middle rotor advances iff the right or the middle
rotor was at its notch, the left rotor advances iff the middle rotor
was at its notch; from positions [0,0,0] one encrypted letter leaves
[0,0,1], and from [0,4,21] it leaves [1,5,22]. -/
theorem stepping_rule :
    (∀ (m : Machine) (c : Char), (m.encryptChar c).1 = m.stepRotors) ∧
    (∀ m : Machine,
       m.stepRotors.right.pos = (m.right.pos + 1) % 26 ∧
       m.stepRotors.middle.pos =
         (if m.right.atNotch || m.middle.atNotch then (m.middle.pos + 1) % 26
          else m.middle.pos) ∧
       m.stepRotors.left.pos =
         (if m.middle.atNotch then (m.left.pos + 1) % 26 else m.left.pos)) ∧
    ((machineStd.encryptChar 'A').1.left.pos = 0 ∧
     (machineStd.encryptChar 'A').1.middle.pos = 0 ∧
     (machineStd.encryptChar 'A').1.right.pos = 1) ∧
    ((machineDouble.encryptChar 'A').1.left.pos = 1 ∧
     (machineDouble.encryptChar 'A').1.middle.pos = 5 ∧
     (machineDouble.encryptChar 'A').1.right.pos = 22) := by
  refine ⟨fun m c => rfl, fun m => ?_, by decide, by decide⟩
  simp only [Machine.stepRotors]
  refine ⟨rfl, ?_, ?_⟩ <;> split <;> rfl

/-- C3. No fixed point: for every valid machine state and every letter
index, the per-letter signal path never returns its input. -/
theorem no_fixed_point (m : Machine) (hm : m.Valid) (x : Nat) (_hx : x < 26) :
    m.encryptLetter x ≠ x :=
  Machine.encryptLetter_ne_self hm x

/-- Witness for C3 at the base machine and the letter A. -/
theorem no_fixed_point_witness :
    machineStd.Valid ∧ machineStd.encryptLetter 0 ≠ 0 :=
  ⟨by decide, no_fixed_point machineStd (by decide) 0 (by decide)⟩

/-- C4. Pass-through invariance: a non-letter character is emitted
unchanged at the same position, causes no stepping and no signal path,
and the machine state after processing depends only on the number of
letter characters; processing A1B performs exactly two stepping
events. -/
theorem passthrough_invariance :
    (∀ (m : Machine) (c : Char), isLetter c = false → m.processChar c = (m, c)) ∧
    (∀ (m : Machine) (cs : List Char) (i : Nat), isLetter (cs.getD i ' ') = false →
        ((m.processList cs).2).getD i ' ' = cs.getD i ' ') ∧
    (∀ (m : Machine) (cs : List Char),
        (m.processList cs).1 = Machine.stepRotors^[cs.countP isLetter] m) ∧
    ("A1B".data.countP isLetter = 2 ∧
      (machineStd.process "A1B").1 = machineStd.stepRotors.stepRotors) := by
  refine ⟨fun m c h => ?_, Machine.processList_getD, Machine.processList_fst,
    by decide, by decide⟩
  simp [Machine.processChar, h]

/-- Witness for C4: a punctuation character passes through with no
state change, and the digit of A1B is emitted unchanged at index 1. -/
theorem passthrough_invariance_witness :
    machineStd.processChar '!' = (machineStd, '!') ∧
      ((machineStd.processList "A1B".data).2).getD 1 ' ' = '1' :=
  ⟨passthrough_invariance.1 machineStd '!' (by decide),
   (passthrough_invariance.2.1 machineStd "A1B".data 1 (by decide)).trans (by decide)⟩

/-- C5. Construction-time validation: a rotor index outside the
catalog, a ring setting or initial position outside 0-25, a plugboard
letter occurring twice, or a self-paired letter makes construction
fail with a ConfigurationError, and every machine that construction
does return is fully valid. -/
theorem construction_validation :
    (∀ cfg : Config,
       (¬ (cfg.rotors.1 < catalog.length ∧ cfg.rotors.2.1 < catalog.length ∧
            cfg.rotors.2.2 < catalog.length) ∨
        ¬ (cfg.rings.1 ≤ 25 ∧ cfg.rings.2.1 ≤ 25 ∧ cfg.rings.2.2 ≤ 25) ∨
        ¬ (cfg.positions.1 ≤ 25 ∧ cfg.positions.2.1 ≤ 25 ∧ cfg.positions.2.2 ≤ 25) ∨
        ¬ (pairLetters cfg.plugNat).Nodup ∨
        (∃ pq ∈ cfg.pairs, pq.1 = pq.2)) →
       ∃ e, buildMachine cfg = .error e) ∧
    (∀ (cfg : Config) (m : Machine), buildMachine cfg = .ok m → m.Valid) := by
  refine ⟨fun cfg hbad => ?_, fun cfg m h => buildMachine_ok_valid h⟩
  unfold buildMachine
  split
  · exact ⟨_, rfl⟩
  · split
    · exact ⟨_, rfl⟩
    · split
      · exact ⟨_, rfl⟩
      · split
        · exact ⟨_, rfl⟩
        · split
          · exact ⟨_, rfl⟩
          · rename_i h1 h2 h3 h4 h5
            rw [not_not] at h1 h2 h3 h4
            rcases hbad with hb | hb | hb | hb | hb
            · exact absurd h1 hb
            · exact absurd h2 hb
            · exact absurd h3 hb
            · exact absurd h4 hb
            · exact absurd hb h5

/-- Witness for C5: an out-of-range rotor index is rejected, and the
base configuration yields a valid machine. -/
theorem construction_validation_witness :
    (∃ e, buildMachine ⟨(5, 1, 2), (0, 0, 0), (0, 0, 0), []⟩ = .error e) ∧
      machineStd.Valid :=
  ⟨construction_validation.1 ⟨(5, 1, 2), (0, 0, 0), (0, 0, 0), []⟩
      (Or.inl (by decide)),
   construction_validation.2 cfgStd machineStd rfl⟩

/-- C6. Rotor round trip: for every rotor in the catalog, every
position, ring setting and letter index in 0-25, the backward
transform inverts the forward transform. -/
theorem rotor_round_trip (s : RotorSpec) (hs : s ∈ catalog) (p r x : Nat)
    (hp : p < 26) (hr : r < 26) (hx : x < 26) :
    (mkRotor s r p).backward ((mkRotor s r p).forward x) = x :=
  Rotor.backward_forward ⟨catalog_wiringPerm s hs, hp, hr⟩ hx

/-- Witness for C6 at rotor I, position 7, ring setting 3, letter 5. -/
theorem rotor_round_trip_witness :
    (⟨rotorIW, 16⟩ : RotorSpec) ∈ catalog ∧
      (mkRotor ⟨rotorIW, 16⟩ 3 7).backward ((mkRotor ⟨rotorIW, 16⟩ 3 7).forward 5) = 5 :=
  ⟨by decide,
   rotor_round_trip ⟨rotorIW, 16⟩ (by decide) 7 3 5 (by decide) (by decide) (by decide)⟩

/-- C7. Plugboard involution: for every valid pair list, a paired
letter maps to its partner, an unpaired letter maps to itself, and the
swap is its own inverse. -/
theorem plugboard_involution (pl : List (Nat × Nat)) (hnd : (pairLetters pl).Nodup) :
    (∀ a b : Nat, (a, b) ∈ pl → plugboardSwap pl a = b ∧ plugboardSwap pl b = a) ∧
    (∀ x : Nat, (∀ pq ∈ pl, x ≠ pq.1 ∧ x ≠ pq.2) → plugboardSwap pl x = x) ∧
    (∀ x : Nat, plugboardSwap pl (plugboardSwap pl x) = x) :=
  ⟨fun _ _ hab => plugboardSwap_pair hnd hab,
   fun _ hx => plugboardSwap_not_mem hx,
   fun x => plugboardSwap_plugboardSwap hnd x⟩

/-- Witness for C7 on the pair list AB, CD. -/
theorem plugboard_involution_witness :
    plugboardSwap [(0, 1), (2, 3)] 0 = 1 ∧ plugboardSwap [(0, 1), (2, 3)] 4 = 4 ∧
      plugboardSwap [(0, 1), (2, 3)] (plugboardSwap [(0, 1), (2, 3)] 2) = 2 :=
  ⟨((plugboard_involution [(0, 1), (2, 3)] (by decide)).1 0 1 (by decide)).1,
   (plugboard_involution [(0, 1), (2, 3)] (by decide)).2.1 4 (by decide),
   (plugboard_involution [(0, 1), (2, 3)] (by decide)).2.2 2⟩

/-- C8. Totality of process: for every machine and every input string,
process returns a string of the same length; it is a total function
with no per-character failure. -/
theorem process_total (m : Machine) (s : String) :
    (m.process s).2.length = s.length :=
  Machine.processList_length m s.data

/-- C9. Ring-setting sensitivity: with identical rotor choices,
initial positions and plugboard, the ring settings [0,0,0] and
[5,10,15] produce different ciphertext letters for the input A. -/
theorem ring_setting_sensitivity :
    ∃ m1 m2 : Machine,
      buildMachine ⟨(0, 1, 2), (0, 0, 0), (0, 0, 0), []⟩ = .ok m1 ∧
      buildMachine ⟨(0, 1, 2), (0, 0, 0), (5, 10, 15), []⟩ = .ok m2 ∧
      (m1.encryptChar 'A').2 ≠ (m2.encryptChar 'A').2 :=
  ⟨machineStd, machineRings, rfl, rfl, by decide⟩

/-- C10. Determinism: two machines constructed from the identical
configuration are equal, produce identical outputs from process on the
same input, and end in identical states. -/
theorem determinism (cfg : Config) (m1 m2 : Machine) (s : String)
    (h1 : buildMachine cfg = .ok m1) (h2 : buildMachine cfg = .ok m2) :
    m1 = m2 ∧ (m1.process s).2 = (m2.process s).2 ∧
      (m1.process s).1 = (m2.process s).1 := by
  rw [h1] at h2
  obtain rfl := Except.ok.inj h2
  exact ⟨rfl, rfl, rfl⟩

/-- Witness for C10 at the base configuration. -/
theorem determinism_witness :
    machineStd = machineStd ∧
      (machineStd.process "AB").2 = (machineStd.process "AB").2 ∧
      (machineStd.process "AB").1 = (machineStd.process "AB").1 :=
  determinism cfgStd machineStd machineStd "AB" rfl rfl

end Enigma
